import Mathlib

/-!
Verification development for the `minimax_dot` pursuit game engine.

The source is a Rust program implementing a two-player pursuit game on a
9×9 staggered hex grid.  We give a shallow embedding of its geometry,
board-state operations, breadth-first reachability search, branch
generators, heuristic utilities, outcome ordering and derived strategy
methods, and prove the specification's claims about them.

Modelling conventions:
* machine integers (`u8`, `i8`, `u128`) are modelled as `Nat`/`Int`; all
  quantities involved stay far away from the wrap-around boundaries for
  the properties proved here (board indices < 81, utilities in
  [-100, 100], search depth ≤ 4), so no modular reduction is needed;
* the `u128` packed board encoding (bits 0–80 = filled cells, bits
  120–127 = dot position) is modelled as a structure with the filled
  bitset kept as a `Nat` bit field and the dot byte kept as a separate
  `Nat`; the two fields occupy disjoint bit ranges in the source, so
  every source operation acts on exactly one of them;
* Rust panics (`unwrap`/`expect` on `None`, min of an empty iterator)
  are modelled by `Option`, with `none` meaning "panic";
* iterators are modelled as eagerly-built `List`s in the same order;
* the BFS visited set `searched` is modelled twice.  In the source it
  is an `i32` by integer-literal fallback (`1 << (self.dot().0 as
  u128)` casts only the shift *amount*), although the adjacent comment
  calls it a "bit field representing the set of searched positions" and
  all cell indices up to 80 are shifted into it: release builds mask
  shift amounts mod 32 (conflating cells 32 apart), debug builds panic
  on any shift ≥ 32.  `dist_to_reach_edge` below models the *intended*
  exact bitset the comment describes (matching the filled-cell bitset
  representation), and `dist_to_reach_edge_release` models the shipped
  release-build semantics faithfully (bit index taken mod 32).
-/

namespace MinimaxDot

/-- `const BOARD_W: usize = 9`. -/
def BOARD_W : Nat := 9

/-- `const BOARD_H: usize = 9`. -/
def BOARD_H : Nat := 9

/-- `const BOARD_SIZE: usize = BOARD_W * BOARD_H`. -/
def BOARD_SIZE : Nat := BOARD_W * BOARD_H

namespace Pos

/-- `Pos::from_xy`: positions are raw cell indices `y * BOARD_W + x`
(the source wraps the index in `struct Pos(u8)`; we use the bare `Nat`). -/
def from_xy (x y : Nat) : Nat := y * BOARD_W + x

/-- `Pos::xy`: recover the `[x, y]` coordinates of a cell index. -/
def xy (p : Nat) : Nat × Nat := (p % BOARD_W, p / BOARD_W)

/-- `Pos::dist_to_edge`: minimum of the four straight-line distances to
the four board boundaries. -/
def dist_to_edge (p : Nat) : Nat :=
  let x := (xy p).1
  let y := (xy p).2
  let dist_left := x + 1
  let dist_right := BOARD_W - x
  let dist_up := y + 1
  let dist_down := BOARD_H - y
  min (min dist_left dist_right) (min dist_up dist_down)

/-- `Pos::neighbors`: the six neighbor slots of a cell, in the source's
fixed order (upper-left, upper-right, left, right, lower-left,
lower-right), with `none` for off-board slots.  Odd rows are staggered,
which shifts the x-offsets of the four diagonal slots by the row parity. -/
def neighbors (p : Nat) : List (Option Nat) :=
  let x : Int := (xy p).1
  let y : Int := (xy p).2
  let compute_neighbor : Int → Int → Option Nat := fun dx dy =>
    let nx := dx + x
    let ny := dy + y
    if 0 ≤ nx ∧ nx < (BOARD_W : Int) ∧ 0 ≤ ny ∧ ny < (BOARD_H : Int) then
      some (from_xy nx.toNat ny.toNat)
    else
      none
  let y_parity : Int := y % 2
  [ compute_neighbor (-1 + y_parity) (-1),
    compute_neighbor (0 + y_parity) (-1),
    compute_neighbor (-1) 0,
    compute_neighbor 1 0,
    compute_neighbor (-1 + y_parity) 1,
    compute_neighbor (0 + y_parity) 1 ]

end Pos

/-- `struct State(u128)`: bits `0..BOARD_SIZE` of the `u128` are the
filled-cell bitset, bits `120..128` are the dot position.  The two bit
ranges are disjoint, so we model them as two separate fields: `filled`
is the filled-cell bit field (bit `p` set iff cell `p` is filled) and
`dot` is the dot's cell index. -/
structure State where
  filled : Nat
  dot : Nat
deriving DecidableEq, Repr

instance : Inhabited State := ⟨⟨0, 0⟩⟩

namespace State

/-- `State::with_dot`: an empty board with the dot at `pos`. -/
def with_dot (pos : Nat) : State := ⟨0, pos⟩

/-- `State::has_filled`: test bit `pos` of the filled-cell bit field. -/
def has_filled (s : State) (pos : Nat) : Bool := s.filled.testBit pos

/-- `State::set_dot`: replace the dot-position byte, leaving the
filled-cell bits untouched. -/
def set_dot (s : State) (pos : Nat) : State := { s with dot := pos }

/-- `State::fill`: `can_fill = !(pos == self.dot() || self.has_filled(pos))`;
the source then ORs `(can_fill as u128) << pos` into the bit field and
returns `can_fill`.  We return the flag together with the updated state. -/
def fill (s : State) (pos : Nat) : Bool × State :=
  let can_fill : Bool := ! (pos == s.dot || s.has_filled pos)
  (can_fill,
   { s with filled := s.filled ||| ((if can_fill then 1 else 0) <<< pos) })

/-- `State::placer_win`: every one of the dot's six neighbor slots is an
in-board filled cell. -/
def placer_win (s : State) : Bool :=
  (Pos.neighbors s.dot).all fun n =>
    match n with
    | none => false
    | some n => s.has_filled n

/-- `State::branch_dot`: one slot per neighbor direction.  `some none`
marks a dot-win (off-board) branch, `none` marks a blocked (filled)
neighbor, and `some (some s')` is an ordinary successor with only the
dot moved. -/
def branch_dot (s : State) : List (Option (Option State)) :=
  (Pos.neighbors s.dot).map fun n =>
    match n with
    | none => some none
    | some n => if s.has_filled n then none else some (some (s.set_dot n))

/-- The row-major traversal `(0..BOARD_H).flat_map(|y| (0..BOARD_W).map(|x| from_xy(x, y)))`
used by `State::branch_placer`. -/
def row_major : List Nat :=
  (List.range BOARD_H).flatMap fun y => (List.range BOARD_W).map fun x => Pos.from_xy x y

/-- `State::branch_placer`: for each board cell in row-major order, skip
the dot's cell and filled cells, fill every other cell, and classify the
result as a placer win (`none`) or an ordinary successor (`some s'`). -/
def branch_placer (s : State) : List (Option State) :=
  row_major.filterMap fun p =>
    let r := s.fill p
    if p = s.dot then none
    else if r.1 = false then none
    else if r.2.placer_win then some none
    else some (some r.2)

end State

/-! ### Breadth-first search (`State::dist_to_reach_edge`)

The BFS loop terminates because each cell enters the frontier at most
once; we model the unbounded `loop` with a fuel parameter that provably
never runs out when the dot starts in range (each productive iteration
marks at least one new cell as searched, so `BOARD_SIZE + 1` iterations
always suffice — in the release-build model the 32-bit mask saturates
even sooner).

The `scan_neighbors`/`process_frontier`/`bfs_loop`/`dist_to_reach_edge`
family below uses the *intended* visited-set semantics: `searched` as an
exact bitset keyed by cell index, which is what the source comment
("bit field representing the set of searched positions") and the spec
("visited bitset keyed by cell index, identical representation to the
filled-cell bitset") describe, and what the `as u128` casts on the
shift amounts were evidently meant to produce.  The shipped code's
`searched` is an `i32` by integer-literal fallback; the faithful
release-build semantics is the `..._release` family further below. -/

namespace State

/-- The inner `for n in pos.neighbors()` loop of the BFS: scan the
neighbor slots of one frontier cell.  An off-board slot means the edge
was reached (`none` result, triggering `return Some(steps)` in the
source); otherwise unsearched unfilled neighbors are marked searched and
pushed onto the new frontier.  Intended visited-set semantics: the bit
index is the cell index itself (the shipped `i32` `searched` masks it
mod 32 in release builds — see `scan_neighbors_release`). -/
def scan_neighbors (s : State) :
    List (Option Nat) → Nat → List Nat → Option (Nat × List Nat)
  | [], searched, new_frontier => some (searched, new_frontier)
  | none :: _, _, _ => none
  | some n :: rest, searched, new_frontier =>
    if searched.testBit n = false ∧ s.has_filled n = false then
      scan_neighbors s rest (searched ||| (1 <<< n)) (new_frontier ++ [n])
    else
      scan_neighbors s rest searched new_frontier

/-- The `for pos in old_frontier.drain(..)` loop of the BFS: expand every
cell of the old frontier in order, accumulating the searched set and the
new frontier; `none` means an off-board slot was found. -/
def process_frontier (s : State) :
    List Nat → Nat → List Nat → Option (Nat × List Nat)
  | [], searched, new_frontier => some (searched, new_frontier)
  | pos :: rest, searched, new_frontier =>
    match scan_neighbors s (Pos.neighbors pos) searched new_frontier with
    | none => none
    | some (searched2, new_frontier2) =>
      process_frontier s rest searched2 new_frontier2

/-- The outer `loop` of `State::dist_to_reach_edge`: each iteration
increments `steps`, returns `None` on an empty frontier, and otherwise
expands the whole frontier, returning `Some steps` if the edge was
reached. -/
def bfs_loop (s : State) : Nat → Nat → List Nat → Nat → Option Nat
  | 0, _, _, _ => none
  | fuel + 1, searched, frontier, steps =>
    if frontier = [] then none
    else
      match process_frontier s frontier searched [] with
      | none => some (steps + 1)
      | some (searched2, new_frontier) =>
        bfs_loop s fuel searched2 new_frontier (steps + 1)

/-- `State::dist_to_reach_edge`: BFS from the dot's cell over unfilled
cells; `some k` is the number of steps needed to reach a cell with an
off-board neighbor slot, `none` means the dot is sealed in.  This is
the intended exact-bitset semantics of `searched`; the shipped
release-build semantics is `dist_to_reach_edge_release`. -/
def dist_to_reach_edge (s : State) : Option Nat :=
  bfs_loop s (BOARD_SIZE + 1) (1 <<< s.dot) [s.dot] 0

/-! #### The shipped release-build BFS

In `dist_to_reach_edge` the source writes
`let mut searched = 1 << (self.dot().0 as u128);` — only the shift
*amount* is cast, so the shiftee `1` (and hence `searched`) falls back
to `i32`.  The subsequent `searched & (1 << neighbor.0)` and
`searched |= 1 << (neighbor.0 as u128)` are likewise `i32` operations.
Cell indices reach 80, so shifts overflow the 32-bit shiftee: debug
builds panic ("attempt to shift left with overflow") at the first shift
amount ≥ 32, and release builds mask the shift amount mod 32.  The
definitions below model the release build: `searched` is the 32-bit
pattern (a `Nat` kept below `2^32`; two's-complement sign is irrelevant
to `&`, `|` and `== 0`), indexed at `n % 32`, so cells 32 apart share a
bit. -/

/-- Release build of the inner neighbor scan: bit indices are the shift
amounts masked mod 32. -/
def scan_neighbors_release (s : State) :
    List (Option Nat) → Nat → List Nat → Option (Nat × List Nat)
  | [], searched, new_frontier => some (searched, new_frontier)
  | none :: _, _, _ => none
  | some n :: rest, searched, new_frontier =>
    if searched.testBit (n % 32) = false ∧ s.has_filled n = false then
      scan_neighbors_release s rest (searched ||| (1 <<< (n % 32)))
        (new_frontier ++ [n])
    else
      scan_neighbors_release s rest searched new_frontier

/-- Release build of the frontier expansion loop. -/
def process_frontier_release (s : State) :
    List Nat → Nat → List Nat → Option (Nat × List Nat)
  | [], searched, new_frontier => some (searched, new_frontier)
  | pos :: rest, searched, new_frontier =>
    match scan_neighbors_release s (Pos.neighbors pos) searched new_frontier with
    | none => none
    | some (searched2, new_frontier2) =>
      process_frontier_release s rest searched2 new_frontier2

/-- Release build of the outer BFS loop. -/
def bfs_loop_release (s : State) : Nat → Nat → List Nat → Nat → Option Nat
  | 0, _, _, _ => none
  | fuel + 1, searched, frontier, steps =>
    if frontier = [] then none
    else
      match process_frontier_release s frontier searched [] with
      | none => some (steps + 1)
      | some (searched2, new_frontier) =>
        bfs_loop_release s fuel searched2 new_frontier (steps + 1)

/-- `State::dist_to_reach_edge` as compiled in a release build: the
`i32` visited mask conflates cells 32 apart (a cell is pushed at most
once per 32-bit slot, so the loop runs far fewer than `BOARD_SIZE + 1`
iterations and the fuel is ample). -/
def dist_to_reach_edge_release (s : State) : Option Nat :=
  bfs_loop_release s (BOARD_SIZE + 1) (1 <<< (s.dot % 32)) [s.dot] 0

end State

/-! ### Heuristic utilities (`approx_utility_placer` / `approx_utility_dot`)

Mutually recursive on the level counter; a Rust panic (the
`unwrap`/`expect` on the minimum of an empty iterator) is modelled as
`none`, and propagates outward exactly as a panic unwinds. -/

/-- Sequence a list of fallible `Int` computations, propagating the first
failure — the `Option` image of mapping a panicking closure over an
iterator. -/
def opt_map_list (f : α → Option Int) : List α → Option (List Int)
  | [] => some []
  | a :: rest =>
    match f a, opt_map_list f rest with
    | some v, some l => some (v :: l)
    | _, _ => none

/-- One level of the mutual recursion between `approx_utility_placer`
(first component) and `approx_utility_dot` (second component); level
`lvl + 1` of either side refers to level `lvl` of the other, exactly as
the source recursion `lvl - 1` does. -/
def autil_pair : Nat → (State → Option Int) × (State → Option Int)
  | 0 =>
    (fun s => some ((Pos.dist_to_edge s.dot : Int)),
     fun s => some (-(Pos.dist_to_edge s.dot : Int)))
  | lvl + 1 =>
    let prev := autil_pair lvl
    (fun s =>
      (opt_map_list
        (fun br =>
          match br with
          | none => some (-100 : Int)
          | some new_state => (prev.2 new_state).map fun v => -v)
        (s.branch_dot.filterMap id)).bind List.min?,
     fun s =>
      (opt_map_list
        (fun br =>
          match br with
          | none => some (-100 : Int)
          | some new_state => (prev.1 new_state).map fun v => -v)
        s.branch_placer).bind List.min?)

/-- `State::approx_utility_placer`: at level 0 the dot's heuristic edge
distance, otherwise the minimum over the dot's non-blocked branches of
`-100` (dot escapes) or the negated dot-side utility one level down.
`none` models the source's `unwrap` panic on an empty minimum. -/
def State.approx_utility_placer (s : State) (lvl : Nat) : Option Int :=
  (autil_pair lvl).1 s

/-- `State::approx_utility_dot`: at level 0 the negated heuristic edge
distance, otherwise the minimum over all placer branches of `-100`
(placer wins) or the negated placer-side utility one level down.  `none`
models the source's `expect` panic ("grid is full") on an empty minimum. -/
def State.approx_utility_dot (s : State) (lvl : Nat) : Option Int :=
  (autil_pair lvl).2 s

/-- The per-branch closure of `approx_utility_placer` at a positive
level: a dot-escape branch scores `-100`, an ordinary dot reply is the
negated dot-side utility one level down. -/
def dot_branch_eval (lvl : Nat) (br : Option State) : Option Int :=
  match br with
  | none => some (-100 : Int)
  | some new_state => (new_state.approx_utility_dot lvl).map fun v => -v

/-- The per-branch closure of `approx_utility_dot` at a positive level:
a placer-win branch scores `-100`, an ordinary placer reply is the
negated placer-side utility one level down. -/
def placer_branch_eval (lvl : Nat) (br : Option State) : Option Int :=
  match br with
  | none => some (-100 : Int)
  | some new_state => (new_state.approx_utility_placer lvl).map fun v => -v

/-! ### Outcome (the adversarial search's totally ordered result type) -/

/-- `enum Outcome { Lose(u8), Play(u8), Win(i8) }` from the placer's
predictive strategy.  `Win` distances are stored negatively (the source
decrements them by `inc` per ply unwound), so `Int` is used there. -/
inductive Outcome where
  | Lose : Nat → Outcome
  | Play : Nat → Outcome
  | Win : Int → Outcome
deriving DecidableEq, Repr

namespace Outcome

/-- The strict order `<` of the Rust `#[derive(PartialOrd, Ord)]` on
`Outcome`: variants compare by declaration order `Lose < Play < Win`,
and equal variants compare by payload. -/
def lt : Outcome → Outcome → Bool
  | Lose m, Lose n => m < n
  | Lose _, Play _ => true
  | Lose _, Win _ => true
  | Play _, Lose _ => false
  | Play m, Play n => m < n
  | Play _, Win _ => true
  | Win _, Lose _ => false
  | Win _, Play _ => false
  | Win m, Win n => m < n

/-- `Outcome::inc`: convert an outcome for this turn into an outcome for
the next turn — losses age by one, wins come one ply closer (stored
negatively, hence the decrement). -/
def inc : Outcome → Outcome
  | Lose n => Lose (n + 1)
  | Play n => Play n
  | Win n => Win (n - 1)

end Outcome

/-! ### Derived strategy `play` methods (`src/ai/strategy.rs`)

Both default `play` implementations build the candidate list with the
`?` operator, which returns `None` from `play` as soon as any terminal
branch is encountered.  The strategy's `preferred_state` is modelled as
an explicit choice function `f`; the source indexes the candidate slice
with its result (panicking if out of range — theorems below only invoke
the selection clause with an in-range selector, via `getD`). -/

/-- The candidate-collecting loop of `DotStrategy::play`: skip blocked
slots, abort (`?`) on a dot-win slot, and collect ordinary successors in
order. -/
def collect_dot : List (Option (Option State)) → Option (List State)
  | [] => some []
  | none :: rest => collect_dot rest
  | some none :: _ => none
  | some (some st) :: rest => (collect_dot rest).map fun l => st :: l

/-- The candidate-collecting loop of `PlacerStrategy::play`: abort (`?`)
on a placer-win branch, collect ordinary successors in order. -/
def collect_placer : List (Option State) → Option (List State)
  | [] => some []
  | none :: _ => none
  | some st :: rest => (collect_placer rest).map fun l => st :: l

/-- `DotStrategy::play` with the strategy's `preferred_state` abstracted
as `f`. -/
def dot_play (f : List State → Nat) (s : State) : Option State :=
  match collect_dot s.branch_dot with
  | none => none
  | some choices => some (choices.getD (f choices) default)

/-- `PlacerStrategy::play` with the strategy's `preferred_state`
abstracted as `f`. -/
def placer_play (f : List State → Nat) (s : State) : Option State :=
  match collect_placer s.branch_placer with
  | none => none
  | some choices => some (choices.getD (f choices) default)

/-- The non-terminal successors among the dot's branches, in branch
order (what the collecting loop produces when no terminal branch
aborts it). -/
def dot_candidates (s : State) : List State :=
  s.branch_dot.filterMap fun o => o.bind id

/-- The non-terminal successors among the placer's branches, in branch
order. -/
def placer_candidates (s : State) : List State :=
  s.branch_placer.filterMap id

/-! ### Derived notions used to state the claims -/

/-- The number of present (`some`) entries of a neighbor array. -/
def count_some (l : List (Option Nat)) : Nat := (l.filterMap id).length

/-- A corner cell: extreme in both coordinates. -/
def Pos.is_corner (p : Nat) : Bool :=
  ((Pos.xy p).1 = 0 ∨ (Pos.xy p).1 = BOARD_W - 1) ∧
  ((Pos.xy p).2 = 0 ∨ (Pos.xy p).2 = BOARD_H - 1)

/-- A boundary cell: extreme in at least one coordinate (corners
included). -/
def Pos.is_boundary (p : Nat) : Bool :=
  (Pos.xy p).1 = 0 ∨ (Pos.xy p).1 = BOARD_W - 1 ∨
  (Pos.xy p).2 = 0 ∨ (Pos.xy p).2 = BOARD_H - 1

/-- The documented `State` invariants: the dot's position is in range
and the dot's cell is never simultaneously marked filled. -/
def State.wf (s : State) : Prop :=
  s.dot < BOARD_SIZE ∧ s.has_filled s.dot = false

instance (s : State) : Decidable s.wf := by unfold State.wf; infer_instance

/-- A legal placer placement exists: some in-range cell is neither the
dot's cell nor already filled. -/
def State.has_placement (s : State) : Prop :=
  ∃ p, p < BOARD_SIZE ∧ p ≠ s.dot ∧ s.has_filled p = false

instance (s : State) : Decidable s.has_placement := by
  unfold State.has_placement
  infer_instance

/-- Cells the dot can reach from its current position by repeated moves
to in-board unfilled neighbor cells. -/
inductive Reach (s : State) : Nat → Prop
  | start : Reach s s.dot
  | step {c n : Nat} : Reach s c → some n ∈ Pos.neighbors c →
      s.has_filled n = false → Reach s n

/-- An escape path in the sense of the spec: a sequence of
pairwise-adjacent unfilled cells, starting at the dot's cell, ending at
a cell one of whose six neighbor slots is off-board. -/
def escape_list (s : State) (l : List Nat) : Prop :=
  l.head? = some s.dot ∧
  l.Chain' (fun a b => some b ∈ Pos.neighbors a) ∧
  (∀ c ∈ l, s.has_filled c = false) ∧
  (∃ e, l.getLast? = some e ∧ none ∈ Pos.neighbors e)

/-- The dot can escape: some reachable cell has an off-board neighbor
slot. -/
def Escapes (s : State) : Prop :=
  ∃ c, Reach s c ∧ none ∈ Pos.neighbors c

/-- The in-range cells marked in a searched-set bit field. -/
def seen_set (searched : Nat) : Finset Nat :=
  (Finset.range BOARD_SIZE).filter fun c => searched.testBit c = true

/-- The invariant of the BFS loop: the frontier is a subset of the
searched set, the searched set contains the dot's cell, consists of
in-range reachable cells, and every searched cell not awaiting
expansion in the frontier has been fully expanded (it had no off-board
slot, and all its unfilled in-board neighbors are searched). -/
structure BfsInv (s : State) (searched : Nat) (frontier : List Nat) : Prop where
  dot_mem : searched.testBit s.dot = true
  mem_subset : ∀ c ∈ frontier, searched.testBit c = true
  inrange : ∀ c, searched.testBit c = true → c < BOARD_SIZE
  reach : ∀ c, searched.testBit c = true → Reach s c
  closed : ∀ c, searched.testBit c = true → c ∉ frontier →
    none ∉ Pos.neighbors c ∧
    ∀ n, some n ∈ Pos.neighbors c → s.has_filled n = false →
      searched.testBit n = true

/-! ## Theorems -/

/-- **C1.** The `Outcome` type of the placer's adversarial search is
totally ordered: every `Lose` is strictly below every `Play`, which is
strictly below every `Win`; within `Lose`, `Lose 1 < Lose 3` (losing
later is better for the placer); win distances are encoded negatively
and decremented by `inc` per ply unwound, so a sooner win (`Win (-j)`)
compares strictly greater than a later one (`Win (-k)` for `j < k`);
and the order is trichotomous, asymmetric and transitive. -/
theorem C1_outcome_ordering :
    (∀ m n : Nat, Outcome.lt (.Lose m) (.Play n) = true) ∧
    (∀ (m : Nat) (n : Int), Outcome.lt (.Play m) (.Win n) = true) ∧
    (∀ (m : Nat) (n : Int), Outcome.lt (.Lose m) (.Win n) = true) ∧
    Outcome.lt (.Lose 1) (.Lose 3) = true ∧
    (∀ j k : Nat, j < k →
      Outcome.lt (.Win (-(k : Int))) (.Win (-(j : Int))) = true) ∧
    (∀ n : Int, Outcome.inc (.Win n) = .Win (n - 1)) ∧
    (∀ x y : Outcome, Outcome.lt x y = true ∨ x = y ∨ Outcome.lt y x = true) ∧
    (∀ x y : Outcome, Outcome.lt x y = true → Outcome.lt y x = false) ∧
    (∀ x y z : Outcome, Outcome.lt x y = true → Outcome.lt y z = true →
      Outcome.lt x z = true) := by
  refine ⟨fun m n => rfl, fun m n => rfl, fun m n => rfl, by decide,
    fun j k h => ?_, fun n => rfl, fun x y => ?_, fun x y => ?_,
    fun x y z => ?_⟩
  · simp only [Outcome.lt, decide_eq_true_eq]
    omega
  · rcases x with m | m | m <;> rcases y with n | n | n <;>
      simp [Outcome.lt] <;> omega
  · rcases x with m | m | m <;> rcases y with n | n | n <;> intro h <;>
      simp [Outcome.lt] at h ⊢ <;> omega
  · rcases x with m | m | m <;> rcases y with n | n | n <;>
      rcases z with k | k | k <;> intro h1 h2 <;>
      simp [Outcome.lt] at h1 h2 ⊢ <;> omega

/-- Witness for C1 at a concrete input: a win in 1 further turn
(encoded `Win (-1)`) compares strictly greater than a win in 3
(encoded `Win (-3)`). -/
theorem C1_outcome_ordering_witness :
    Outcome.lt (.Win (-(3 : Int))) (.Win (-(1 : Int))) = true :=
  C1_outcome_ordering.2.2.2.2.1 1 3 (by decide)

/-- **C2.** `State::fill` returns `true` and sets exactly the bit of an
in-range position `p` (dot position and all other cells unchanged) iff
`p` is neither already filled nor the dot's current cell; otherwise it
returns `false` and leaves the state bit-for-bit unchanged.  Filling
the same free cell twice returns `true` then `false`, and filling the
dot's current cell returns `false` regardless of prior state. -/
theorem C2_fill_gate (s : State) (p : Nat) (hp : p < BOARD_SIZE) :
    ((p ≠ s.dot ∧ s.has_filled p = false) →
      (s.fill p).1 = true ∧
      (s.fill p).2.dot = s.dot ∧
      (s.fill p).2.has_filled p = true ∧
      (∀ q, q ≠ p → (s.fill p).2.has_filled q = s.has_filled q) ∧
      ((s.fill p).2.fill p).1 = false) ∧
    ((p = s.dot ∨ s.has_filled p = true) →
      (s.fill p).1 = false ∧ (s.fill p).2 = s) ∧
    (p = s.dot → (s.fill p).1 = false ∧ (s.fill p).2 = s) := by
  have hfree : ∀ (h1 : (p == s.dot) = false) (h2 : s.has_filled p = false),
      (s.fill p) = (true, { s with filled := s.filled ||| 1 <<< p }) := by
    intro h1 h2
    simp [State.fill, h1, h2]
  have hblocked : ∀ (h : (p == s.dot) = true ∨ s.has_filled p = true),
      (s.fill p) = (false, s) := by
    intro h
    have hcan : (! (p == s.dot || s.has_filled p)) = false := by
      rcases h with h | h <;> simp [h]
    simp only [State.fill, hcan, Bool.false_eq_true, if_false,
      Nat.zero_shiftLeft, Nat.or_zero]
  refine ⟨?_, ?_, ?_⟩
  · rintro ⟨hne, hf⟩
    have h1 : (p == s.dot) = false := by simpa using hne
    rw [hfree h1 hf]
    refine ⟨rfl, rfl, ?_, ?_, ?_⟩
    · simp [State.has_filled, Nat.testBit_lor, Nat.one_shiftLeft,
        Nat.testBit_two_pow_self]
    · intro q hq
      simp [State.has_filled, Nat.testBit_lor, Nat.one_shiftLeft,
        Nat.testBit_two_pow_of_ne (Ne.symm hq)]
    · have hset : ({ s with filled := s.filled ||| 1 <<< p } :
          State).has_filled p = true := by
        simp [State.has_filled, Nat.testBit_lor, Nat.one_shiftLeft,
          Nat.testBit_two_pow_self]
      simp [State.fill, hset]
  · intro h
    have h' : (p == s.dot) = true ∨ s.has_filled p = true := by
      rcases h with h | h
      · exact Or.inl (by simpa using h)
      · exact Or.inr h
    rw [hblocked h']
    exact ⟨rfl, rfl⟩
  · intro h
    rw [hblocked (Or.inl (by simpa using h))]
    exact ⟨rfl, rfl⟩

/-- Witness for C2 at a concrete input: on the empty board with the dot
at cell 0, filling cell 5 succeeds, keeps the dot and the other cells
unchanged, and a second fill of cell 5 returns `false`. -/
theorem C2_fill_gate_witness :
    ((⟨0, 0⟩ : State).fill 5).1 = true ∧
    ((⟨0, 0⟩ : State).fill 5).2.dot = (⟨0, 0⟩ : State).dot ∧
    ((⟨0, 0⟩ : State).fill 5).2.has_filled 5 = true ∧
    (∀ q, q ≠ 5 →
      ((⟨0, 0⟩ : State).fill 5).2.has_filled q =
        (⟨0, 0⟩ : State).has_filled q) ∧
    (((⟨0, 0⟩ : State).fill 5).2.fill 5).1 = false :=
  (C2_fill_gate ⟨0, 0⟩ 5 (by decide)).1 ⟨by decide, by decide⟩

/-- **C8 counterexample.** The claim "corner cells have strictly fewer
present neighbor entries than non-corner edge cells" fails: corner
(8,0) (cell 8) has 3 present entries, and so does the non-corner edge
cell (0,2) (cell 18). -/
theorem C8_counterexample :
    Pos.is_corner 8 = true ∧
    Pos.is_boundary 18 = true ∧ Pos.is_corner 18 = false ∧
    count_some (Pos.neighbors 8) = 3 ∧
    count_some (Pos.neighbors 18) = 3 ∧
    ¬ count_some (Pos.neighbors 8) < count_some (Pos.neighbors 18) := by
  decide

set_option maxRecDepth 1000000 in
/-- **C8 (amended).** For every in-range position `p`, the number of
present entries of `neighbors p` equals the number of in-range cells
`q` with `some q` an entry of `neighbors p`, and adjacency is
symmetric.  Corner cells have *no more* (not strictly fewer) present
entries than non-corner boundary cells, and every boundary cell has
strictly fewer present entries than every interior cell. -/
theorem C8_neighbor_counts :
    (∀ p, p < BOARD_SIZE →
      count_some (Pos.neighbors p) =
        ((List.range BOARD_SIZE).filter fun q =>
          decide (some q ∈ Pos.neighbors p)).length ∧
      ∀ q ∈ (Pos.neighbors p).filterMap id, some p ∈ Pos.neighbors q) ∧
    (∀ p, p < BOARD_SIZE → ∀ q, q < BOARD_SIZE →
      Pos.is_corner p = true → Pos.is_boundary q = true →
      Pos.is_corner q = false →
      count_some (Pos.neighbors p) ≤ count_some (Pos.neighbors q)) ∧
    (∀ p, p < BOARD_SIZE → ∀ q, q < BOARD_SIZE →
      Pos.is_boundary p = true → Pos.is_boundary q = false →
      count_some (Pos.neighbors p) < count_some (Pos.neighbors q)) := by
  refine ⟨?_, ?_, ?_⟩
  · decide
  · decide
  · decide

/-- Witness for C8 (amended) at concrete inputs: boundary cell 0 has
strictly fewer present neighbor entries than interior cell 40. -/
theorem C8_neighbor_counts_witness :
    count_some (Pos.neighbors 0) < count_some (Pos.neighbors 40) :=
  C8_neighbor_counts.2.2 0 (by decide) 40 (by decide) (by decide) (by decide)

set_option maxRecDepth 1000000 in
/-- Intended-model half of claim C9: with the intended exact-bitset
`searched` (the semantics the source comment and the spec describe), on
a board with no filled cells and the dot at any in-range position `p`
the BFS returns exactly `some (dist_to_edge p)` — the search and the
obstacle-naive straight-line heuristic agree on every obstacle-free
board under one consistent boundary convention.  The shipped code
diverges from this (see `C9_release_bfs_disagrees_at_center`). -/
theorem bfs_intended_agrees_with_heuristic :
    ∀ p, p < BOARD_SIZE →
      (State.with_dot p).dist_to_reach_edge = some (Pos.dist_to_edge p) := by
  decide

/-- Instance of `bfs_intended_agrees_with_heuristic` at the center cell:
both measures give 5. -/
theorem bfs_intended_agrees_with_heuristic_inst :
    (State.with_dot 40).dist_to_reach_edge = some (Pos.dist_to_edge 40) :=
  bfs_intended_agrees_with_heuristic 40 (by decide)

/-! ### Helper lemmas about the collecting loops and branch lists -/

lemma collect_dot_eq_none_iff (l : List (Option (Option State))) :
    collect_dot l = none ↔ some none ∈ l := by
  induction l with
  | nil => simp [collect_dot]
  | cons o rest ih =>
    rcases o with _ | (_ | st) <;> simp [collect_dot, ih]

lemma collect_dot_eq_some (l : List (Option (Option State)))
    (h : some none ∉ l) :
    collect_dot l = some (l.filterMap fun o => o.bind id) := by
  induction l with
  | nil => simp [collect_dot]
  | cons o rest ih =>
    rcases o with _ | (_ | st)
    · simp only [List.mem_cons] at h
      simp [collect_dot, ih (fun hc => h (Or.inr hc)), Option.bind]
    · exact absurd (List.mem_cons_self _ _) h
    · simp only [List.mem_cons] at h
      simp [collect_dot, ih (fun hc => h (Or.inr hc)), Option.bind]

lemma collect_placer_eq_none_iff (l : List (Option State)) :
    collect_placer l = none ↔ none ∈ l := by
  induction l with
  | nil => simp [collect_placer]
  | cons o rest ih =>
    rcases o with _ | st <;> simp [collect_placer, ih]

lemma collect_placer_eq_some (l : List (Option State)) (h : none ∉ l) :
    collect_placer l = some (l.filterMap id) := by
  induction l with
  | nil => simp [collect_placer]
  | cons o rest ih =>
    rcases o with _ | st
    · exact absurd (List.mem_cons_self _ _) h
    · simp only [List.mem_cons] at h
      simp [collect_placer, ih (fun hc => h (Or.inr hc))]

/-- A `filterMap` whose function is `some ∘ g` on cells passing `pred`
and `none` elsewhere is the `map` of `g` over the `filter`. -/
lemma filterMap_eq_map_filter {α β : Type} (F : α → Option β)
    (pred : α → Bool) (g : α → β) (l : List α)
    (hsome : ∀ a, pred a = true → F a = some (g a))
    (hnone : ∀ a, pred a = false → F a = none) :
    l.filterMap F = (l.filter pred).map g := by
  induction l with
  | nil => simp
  | cons a t ih =>
    cases hp : pred a with
    | true => simp [List.filterMap_cons, List.filter_cons, hp, hsome a hp, ih]
    | false => simp [List.filterMap_cons, List.filter_cons, hp, hnone a hp, ih]

/-- `filterMap` preserves `Nodup` under injectivity restricted to the
list's members. -/
lemma filterMap_nodup_on {α β : Type} {g : α → Option β} {l : List α}
    (hl : l.Nodup)
    (hinj : ∀ a ∈ l, ∀ a' ∈ l, ∀ b, g a = some b → g a' = some b → a = a') :
    (l.filterMap g).Nodup := by
  induction l with
  | nil => simp
  | cons a t ih =>
    rcases List.nodup_cons.mp hl with ⟨ha, ht⟩
    have hinj' : ∀ x ∈ t, ∀ x' ∈ t, ∀ b, g x = some b → g x' = some b → x = x' :=
      fun x hx x' hx' b h1 h2 =>
        hinj x (List.mem_cons_of_mem _ hx) x' (List.mem_cons_of_mem _ hx') b h1 h2
    cases hg : g a with
    | none => simpa [List.filterMap_cons, hg] using ih ht hinj'
    | some b =>
      rw [List.filterMap_cons, hg]
      refine List.nodup_cons.mpr ⟨fun hb => ?_, ih ht hinj'⟩
      rcases List.mem_filterMap.mp hb with ⟨a', ha', hga'⟩
      exact ha (hinj a (List.mem_cons_self _ _) a'
        (List.mem_cons_of_mem _ ha') b hg hga' ▸ ha')

/-- **C5 counterexample.** With the dot at corner cell 0 on an empty
board, `branch_dot` contains both a terminal (off-board) slot and
ordinary successors, yet the derived `play` returns `None`: the claim
"play returns None only when no non-terminal candidate exists" is
false. -/
theorem C5_counterexample :
    dot_play (fun _ => 0) (State.with_dot 0) = none ∧
    dot_candidates (State.with_dot 0) ≠ [] := by
  decide

/-- **C5 (amended).** For both strategy roles, the derived
`play(state)` returns `None` iff at least one terminal branch exists
(the `?` operator aborts the candidate-collecting loop at the first
terminal branch — the source's doc comment reads "Return `None` to
indicate a winning move"); when no terminal branch exists, `play`
returns the successor selected by `preferred_state` over all the
non-terminal candidates. -/
theorem C5_play_aborts_on_terminal (s : State) (f g : List State → Nat) :
    (dot_play f s = none ↔ some none ∈ s.branch_dot) ∧
    (placer_play g s = none ↔ none ∈ s.branch_placer) ∧
    (some none ∉ s.branch_dot →
      dot_play f s =
        some ((dot_candidates s).getD (f (dot_candidates s)) default)) ∧
    (none ∉ s.branch_placer →
      placer_play g s =
        some ((placer_candidates s).getD (g (placer_candidates s)) default)) := by
  refine ⟨?_, ?_, ?_, ?_⟩
  · cases h : collect_dot s.branch_dot with
    | none => simp [dot_play, h, (collect_dot_eq_none_iff _).mp h]
    | some l =>
      simp only [dot_play, h]
      constructor
      · intro hc
        cases hc
      · intro hmem
        rw [(collect_dot_eq_none_iff _).mpr hmem] at h
        cases h
  · cases h : collect_placer s.branch_placer with
    | none => simp [placer_play, h, (collect_placer_eq_none_iff _).mp h]
    | some l =>
      simp only [placer_play, h]
      constructor
      · intro hc
        cases hc
      · intro hmem
        rw [(collect_placer_eq_none_iff _).mpr hmem] at h
        cases h
  · intro h
    rw [dot_play, collect_dot_eq_some _ h]
    rfl
  · intro h
    rw [placer_play, collect_placer_eq_some _ h]
    rfl

/-- Witness for C5 (amended) at a concrete input: with the dot at the
center of an empty board no terminal branch exists, and `play` returns
the first candidate when the selector picks index 0. -/
theorem C5_play_aborts_on_terminal_witness :
    dot_play (fun _ => 0) (State.with_dot 40) =
      some ((dot_candidates (State.with_dot 40)).getD 0 default) :=
  (C5_play_aborts_on_terminal (State.with_dot 40)
    (fun _ => 0) (fun _ => 0)).2.2.1 (by decide)

/-- **C3.** For every state and each of the six neighbor slots of the
dot's position, `branch_dot` classifies slot `i` as the terminal
dot-win marker (`some none`) iff neighbor `i` is off-board; as omitted
(`none`) iff neighbor `i` is an in-board filled cell; and otherwise as
an ordinary successor whose filled bitset equals that of `s` and whose
dot position equals neighbor `i`. -/
theorem C3_branch_dot (s : State) (i : Nat)
    (h : i < s.branch_dot.length) (h2 : i < (Pos.neighbors s.dot).length) :
    (s.branch_dot.get ⟨i, h⟩ = some none ↔
      (Pos.neighbors s.dot).get ⟨i, h2⟩ = none) ∧
    (s.branch_dot.get ⟨i, h⟩ = none ↔
      ∃ n, (Pos.neighbors s.dot).get ⟨i, h2⟩ = some n ∧
        s.has_filled n = true) ∧
    (∀ n, (Pos.neighbors s.dot).get ⟨i, h2⟩ = some n →
      s.has_filled n = false →
      s.branch_dot.get ⟨i, h⟩ = some (some ⟨s.filled, n⟩)) := by
  simp only [List.get_eq_getElem]
  rcases hn : (Pos.neighbors s.dot)[i] with _ | n
  · have key : s.branch_dot[i] = some none := by
      simp [State.branch_dot, hn]
    simp only [key]
    refine ⟨by simp, by simp, ?_⟩
    intro n hcontra
    cases hcontra
  · have key : s.branch_dot[i] =
        if s.has_filled n then none else some (some (s.set_dot n)) := by
      simp [State.branch_dot, hn]
    by_cases hf : s.has_filled n = true
    · rw [if_pos hf] at key
      simp only [key]
      refine ⟨by simp, ?_, ?_⟩
      · simp only [true_iff]
        exact ⟨n, rfl, hf⟩
      · intro m hm hmf
        injection hm with hnm
        subst hnm
        rw [hf] at hmf
        cases hmf
    · rw [if_neg hf] at key
      simp only [key]
      refine ⟨by simp, ?_, ?_⟩
      · constructor
        · intro hc
          cases hc
        · rintro ⟨m, hm, hmf⟩
          injection hm with hnm
          subst hnm
          exact absurd hmf hf
      · intro m hm hmf
        injection hm with hnm
        subst hnm
        rfl

/-- Witness for C3 at a concrete input: on the empty board with the dot
at center cell 40, slot 0 is the ordinary successor with the dot moved
to neighbor cell 30. -/
theorem C3_branch_dot_witness :
    (State.with_dot 40).branch_dot.get ⟨0, by decide⟩ =
      some (some ⟨(State.with_dot 40).filled, 30⟩) :=
  (C3_branch_dot (State.with_dot 40) 0 (by decide) (by decide)).2.2 30
    (by decide) (by decide)

/-! ### Helper lemmas about `fill` and the placer branch list -/

lemma row_major_eq : State.row_major = List.range BOARD_SIZE := by decide

lemma testBit_or_pow_self (a p : Nat) : (a ||| 1 <<< p).testBit p = true := by
  simp [Nat.testBit_lor, Nat.one_shiftLeft, Nat.testBit_two_pow_self]

lemma testBit_or_pow_other (a p q : Nat) (h : q ≠ p) :
    (a ||| 1 <<< p).testBit q = a.testBit q := by
  simp [Nat.testBit_lor, Nat.one_shiftLeft,
    Nat.testBit_two_pow_of_ne (Ne.symm h)]

/-- Successful `fill`: at a cell that is neither the dot nor filled, the
flag is `true` and exactly bit `p` is ORed in. -/
lemma fill_free (s : State) (p : Nat) (hd : (p == s.dot) = false)
    (hf : s.has_filled p = false) :
    s.fill p = (true, { s with filled := s.filled ||| 1 <<< p }) := by
  simp [State.fill, hd, hf]

/-- Failed `fill`: at the dot's cell or a filled cell, the flag is
`false` and the state is unchanged. -/
lemma fill_blocked (s : State) (p : Nat)
    (h : (p == s.dot) = true ∨ s.has_filled p = true) :
    s.fill p = (false, s) := by
  have hcan : (! (p == s.dot || s.has_filled p)) = false := by
    rcases h with h | h <;> simp [h]
  simp only [State.fill, hcan, Bool.false_eq_true, if_false,
    Nat.zero_shiftLeft, Nat.or_zero]

/-- The normal form of `branch_placer`: one entry per legal cell in
row-major order, classified by `placer_win` after the fill. -/
lemma branch_placer_eq (s : State) :
    s.branch_placer =
      ((List.range BOARD_SIZE).filter fun p =>
          !(p == s.dot) && !s.has_filled p).map
        fun p => if (s.fill p).2.placer_win then none
                 else some (s.fill p).2 := by
  rw [State.branch_placer, row_major_eq]
  apply filterMap_eq_map_filter
  · intro p hp
    simp only [Bool.and_eq_true, Bool.not_eq_true'] at hp
    obtain ⟨hpd, hpf⟩ := hp
    have hne : ¬ p = s.dot := by simpa using hpd
    have hfill : (s.fill p).1 = true := by rw [fill_free s p hpd hpf]
    simp only [if_neg hne, hfill]
    by_cases hw : (s.fill p).2.placer_win = true <;> simp [hw]
  · intro p hp
    by_cases hne : p = s.dot
    · simp [if_pos hne]
    · have hpd : (p == s.dot) = false := by simpa using hne
      have hpf : s.has_filled p = true := by
        cases hfc : s.has_filled p with
        | true => rfl
        | false =>
          rw [hpd, hfc] at hp
          simp at hp
      have hfill : (s.fill p).1 = false := by
        rw [fill_blocked s p (Or.inr hpf)]
      simp [if_neg hne, hfill]

/-- **C7.** `branch_placer` yields one result per board cell that is
neither the dot's cell nor filled, in row-major order, classified as
the terminal placer-win marker iff `placer_win` holds after filling
that cell; no yielded successor has the dot's cell filled (the dot
position is unchanged and unfilled), and no two yielded successors are
equal. -/
theorem C7_branch_placer (s : State) (h1 : s.has_filled s.dot = false) :
    (s.branch_placer =
      ((List.range BOARD_SIZE).filter fun p =>
          !(p == s.dot) && !s.has_filled p).map
        fun p => if (s.fill p).2.placer_win then none
                 else some (s.fill p).2) ∧
    (∀ st, some st ∈ s.branch_placer →
      st.dot = s.dot ∧ st.has_filled st.dot = false) ∧
    (s.branch_placer.filterMap id).Nodup := by
  refine ⟨branch_placer_eq s, ?_, ?_⟩
  · intro st hmem
    rw [branch_placer_eq s] at hmem
    rcases List.mem_map.mp hmem with ⟨p, hpmem, hpeq⟩
    rcases List.mem_filter.mp hpmem with ⟨-, hpred⟩
    simp only [Bool.and_eq_true, Bool.not_eq_true'] at hpred
    obtain ⟨hpd, hpf⟩ := hpred
    by_cases hw : (s.fill p).2.placer_win = true
    · rw [if_pos hw] at hpeq
      cases hpeq
    · rw [if_neg hw] at hpeq
      have hst : st = (s.fill p).2 := (Option.some_inj.mp hpeq).symm
      rw [hst, fill_free s p hpd hpf]
      refine ⟨rfl, ?_⟩
      have hdp : s.dot ≠ p := fun hc => by simp [hc] at hpd
      show (s.filled ||| 1 <<< p).testBit s.dot = false
      rw [testBit_or_pow_other s.filled p s.dot hdp]
      exact h1
  · rw [branch_placer_eq s, List.filterMap_map]
    apply filterMap_nodup_on ((List.nodup_range _).filter _)
    intro a ha a' ha' b hb hb'
    rcases List.mem_filter.mp ha with ⟨-, hpa⟩
    rcases List.mem_filter.mp ha' with ⟨-, hpa'⟩
    simp only [Bool.and_eq_true, Bool.not_eq_true'] at hpa hpa'
    simp only [Function.comp] at hb hb'
    by_cases hw : (s.fill a).2.placer_win = true
    · rw [if_pos hw] at hb
      cases hb
    · by_cases hw' : (s.fill a').2.placer_win = true
      · rw [if_pos hw'] at hb'
        cases hb'
      · rw [if_neg hw] at hb
        rw [if_neg hw'] at hb'
        have hba : b = (s.fill a).2 := (Option.some_inj.mp hb).symm
        have hba' : b = (s.fill a').2 := (Option.some_inj.mp hb').symm
        by_contra hne
        have e1 : b.filled = s.filled ||| 1 <<< a := by
          rw [hba, fill_free s a hpa.1 hpa.2]
        have e2 : b.filled = s.filled ||| 1 <<< a' := by
          rw [hba', fill_free s a' hpa'.1 hpa'.2]
        have t1 : b.filled.testBit a = true := by
          rw [e1]; exact testBit_or_pow_self _ _
        have t2 : b.filled.testBit a = false := by
          rw [e2, testBit_or_pow_other s.filled a' a hne]
          exact hpa.2
        rw [t1] at t2
        cases t2

/-- Witness for C7 at a concrete input: the empty board with the dot at
cell 0. -/
theorem C7_branch_placer_witness :
    ((State.with_dot 0).branch_placer =
      ((List.range BOARD_SIZE).filter fun p =>
          !(p == (State.with_dot 0).dot) && !(State.with_dot 0).has_filled p).map
        fun p => if ((State.with_dot 0).fill p).2.placer_win then none
                 else some ((State.with_dot 0).fill p).2) ∧
    (∀ st, some st ∈ (State.with_dot 0).branch_placer →
      st.dot = (State.with_dot 0).dot ∧ st.has_filled st.dot = false) ∧
    ((State.with_dot 0).branch_placer.filterMap id).Nodup :=
  C7_branch_placer (State.with_dot 0) (by decide)

/-! ### Finite facts about the neighbor geometry -/

set_option maxRecDepth 1000000 in
lemma nbr_lt : ∀ p, p < BOARD_SIZE →
    ∀ o ∈ Pos.neighbors p, o.getD 0 < BOARD_SIZE := by
  decide

set_option maxRecDepth 1000000 in
lemma nbr_ne_self : ∀ p, p < BOARD_SIZE → some p ∉ Pos.neighbors p := by
  decide

/-- An in-board neighbor of an in-range cell is in range. -/
lemma nbr_mem_lt {p n : Nat} (hp : p < BOARD_SIZE)
    (h : some n ∈ Pos.neighbors p) : n < BOARD_SIZE :=
  nbr_lt p hp (some n) h

/-! ### Helper lemmas for the heuristic utilities -/

lemma approx_utility_placer_zero (s : State) :
    s.approx_utility_placer 0 = some ((Pos.dist_to_edge s.dot : Int)) := rfl

lemma approx_utility_dot_zero (s : State) :
    s.approx_utility_dot 0 = some (-(Pos.dist_to_edge s.dot : Int)) := rfl

lemma approx_utility_placer_succ (s : State) (lvl : Nat) :
    s.approx_utility_placer (lvl + 1) =
      (opt_map_list (dot_branch_eval lvl)
        (s.branch_dot.filterMap id)).bind List.min? := rfl

lemma approx_utility_dot_succ (s : State) (lvl : Nat) :
    s.approx_utility_dot (lvl + 1) =
      (opt_map_list (placer_branch_eval lvl)
        s.branch_placer).bind List.min? := rfl

lemma opt_map_list_eq_some_of_forall {α : Type} {f : α → Option Int}
    {l : List α} (h : ∀ a ∈ l, ∃ v, f a = some v) :
    ∃ r, opt_map_list f l = some r ∧ r.length = l.length := by
  induction l with
  | nil => exact ⟨[], rfl, rfl⟩
  | cons a t ih =>
    obtain ⟨v, hv⟩ := h a (List.mem_cons_self a t)
    obtain ⟨r, hr, hlen⟩ := ih fun x hx => h x (List.mem_cons_of_mem _ hx)
    exact ⟨v :: r, by simp [opt_map_list, hv, hr], by simp [hlen]⟩

lemma min?_of_ne_nil {l : List Int} (h : l ≠ []) : ∃ v, l.min? = some v := by
  cases l with
  | nil => exact absurd rfl h
  | cons a t => exact ⟨t.foldl min a, rfl⟩

/-- `has_placement` characterizes a nonempty placer branch list. -/
lemma branch_placer_eq_nil_iff (s : State) :
    s.branch_placer = [] ↔ ¬ s.has_placement := by
  rw [branch_placer_eq, List.map_eq_nil, List.filter_eq_nil]
  constructor
  · rintro h ⟨p, hp, hpd, hpf⟩
    have hpd' : (p == s.dot) = false := by simpa using hpd
    exact h p (List.mem_range.mpr hp) (by simp [hpd', hpf])
  · intro h p hpmem hpred
    simp only [Bool.and_eq_true, Bool.not_eq_true'] at hpred
    exact h ⟨p, List.mem_range.mp hpmem, by simpa using hpred.1, hpred.2⟩

/-- Classification of ordinary placer successors. -/
lemma mem_branch_placer_some (s : State) {st : State}
    (h : some st ∈ s.branch_placer) :
    st.placer_win = false ∧
    ∃ p, p < BOARD_SIZE ∧ (p == s.dot) = false ∧ s.has_filled p = false ∧
      st = (s.fill p).2 := by
  rw [branch_placer_eq] at h
  rcases List.mem_map.mp h with ⟨p, hpmem, hpeq⟩
  rcases List.mem_filter.mp hpmem with ⟨hrange, hpred⟩
  simp only [Bool.and_eq_true, Bool.not_eq_true'] at hpred
  by_cases hw : (s.fill p).2.placer_win = true
  · rw [if_pos hw] at hpeq
    cases hpeq
  · rw [if_neg hw] at hpeq
    have hst : st = (s.fill p).2 := (Option.some_inj.mp hpeq).symm
    refine ⟨by rw [hst]; exact Bool.not_eq_true _ ▸ eq_false_of_ne_true hw, p,
      List.mem_range.mp hrange, hpred.1, hpred.2, hst⟩

/-- Classification of the dot's non-blocked branches. -/
lemma mem_branch_dot_filterMap (s : State) {x : Option State}
    (h : x ∈ s.branch_dot.filterMap id) :
    x = none ∨
    ∃ n, some n ∈ Pos.neighbors s.dot ∧ s.has_filled n = false ∧
      x = some (s.set_dot n) := by
  rcases List.mem_filterMap.mp h with ⟨o, ho, hox⟩
  rw [State.branch_dot] at ho
  rcases List.mem_map.mp ho with ⟨slot, hslot, hfo⟩
  rcases slot with _ | n
  · left
    rw [← hfo] at hox
    cases hox
    rfl
  · right
    have hmatch : (match some n with
        | none => some (none : Option State)
        | some m => if s.has_filled m then none
                    else some (some (s.set_dot m))) =
        (if s.has_filled n then none else some (some (s.set_dot n))) := rfl
    rw [hmatch] at hfo
    by_cases hf : s.has_filled n = true
    · rw [if_pos hf] at hfo
      rw [← hfo] at hox
      cases hox
    · rw [if_neg hf] at hfo
      rw [← hfo] at hox
      cases hox
      exact ⟨n, hslot, eq_false_of_ne_true hf, rfl⟩

/-- The dot's non-blocked branch list is empty iff the placer has won. -/
lemma branch_dot_filterMap_eq_nil_iff (s : State) :
    s.branch_dot.filterMap id = [] ↔ s.placer_win = true := by
  rw [State.branch_dot, List.filterMap_map, State.placer_win,
    List.all_eq_true, List.filterMap_eq_nil]
  constructor
  · intro h slot hslot
    have hfs := h slot hslot
    rcases slot with _ | n
    · simp [Function.comp] at hfs
    · simp only [Function.comp, id] at hfs
      by_cases hf : s.has_filled n = true
      · exact hf
      · rw [if_neg hf] at hfs
        cases hfs
  · intro h slot hslot
    have hfs := h slot hslot
    rcases slot with _ | n
    · cases hfs
    · simp only [Function.comp, id]
      rw [if_pos hfs]

/-- Mutual totality of the heuristic utilities under the state
invariants: the dot side is defined whenever a legal placement exists,
the placer side whenever the placer has not already won. -/
lemma autil_defined (lvl : Nat) :
    (∀ s : State, s.wf → s.has_placement →
      ∃ v, s.approx_utility_dot lvl = some v) ∧
    (∀ s : State, s.wf → s.placer_win = false →
      ∃ v, s.approx_utility_placer lvl = some v) := by
  induction lvl with
  | zero => exact ⟨fun s _ _ => ⟨_, rfl⟩, fun s _ _ => ⟨_, rfl⟩⟩
  | succ lvl ih =>
    obtain ⟨ihd, ihp⟩ := ih
    constructor
    · intro s hwf hplace
      rw [approx_utility_dot_succ]
      have hall : ∀ br ∈ s.branch_placer, ∃ v,
          placer_branch_eval lvl br = some v := by
        intro br hbr
        rcases br with _ | st
        · exact ⟨_, rfl⟩
        · obtain ⟨hwin, p, hp, hpd, hpf, hst⟩ := mem_branch_placer_some s hbr
          have hdot : st.dot = s.dot := by rw [hst, fill_free s p hpd hpf]
          have hwfst : st.wf := by
            refine ⟨hdot ▸ hwf.1, ?_⟩
            rw [hdot, hst, fill_free s p hpd hpf]
            show (s.filled ||| 1 <<< p).testBit s.dot = false
            rw [testBit_or_pow_other s.filled p s.dot
              fun hc => by simp [hc] at hpd]
            exact hwf.2
          obtain ⟨v, hv⟩ := ihp st hwfst hwin
          refine ⟨-v, ?_⟩
          show ((st.approx_utility_placer lvl).map fun w => -w) = some (-v)
          rw [hv]
          rfl
      obtain ⟨r, hr, hlen⟩ := opt_map_list_eq_some_of_forall hall
      rw [hr]
      have hbne : s.branch_placer ≠ [] := fun hc =>
        (branch_placer_eq_nil_iff s).mp hc hplace
      have hrne : r ≠ [] := fun hc => by
        rw [hc] at hlen
        exact hbne (List.length_eq_zero.mp hlen.symm)
      obtain ⟨v, hv⟩ := min?_of_ne_nil hrne
      exact ⟨v, by simp [hv]⟩
    · intro s hwf hwin
      rw [approx_utility_placer_succ]
      have hall : ∀ br ∈ s.branch_dot.filterMap id, ∃ v,
          dot_branch_eval lvl br = some v := by
        intro br hbr
        rcases mem_branch_dot_filterMap s hbr with rfl | ⟨n, hn, hnf, rfl⟩
        · exact ⟨_, rfl⟩
        · have hnd : n ≠ s.dot := fun hc =>
            nbr_ne_self s.dot hwf.1 (hc ▸ hn)
          have hwfst : (s.set_dot n).wf :=
            ⟨nbr_mem_lt hwf.1 hn, hnf⟩
          have hplst : (s.set_dot n).has_placement :=
            ⟨s.dot, hwf.1, fun hc => hnd hc.symm, hwf.2⟩
          obtain ⟨v, hv⟩ := ihd (s.set_dot n) hwfst hplst
          refine ⟨-v, ?_⟩
          show (((s.set_dot n).approx_utility_dot lvl).map fun w => -w) =
            some (-v)
          rw [hv]
          rfl
      obtain ⟨r, hr, hlen⟩ := opt_map_list_eq_some_of_forall hall
      rw [hr]
      have hbne : s.branch_dot.filterMap id ≠ [] := fun hc => by
        rw [(branch_dot_filterMap_eq_nil_iff s).mp hc] at hwin
        cases hwin
      have hrne : r ≠ [] := fun hc => by
        rw [hc] at hlen
        exact hbne (List.length_eq_zero.mp hlen.symm)
      obtain ⟨v, hv⟩ := min?_of_ne_nil hrne
      exact ⟨v, by simp [hv]⟩

/-- **C6.** For every well-formed state that admits at least one legal
placer placement, `approx_utility_dot` returns a value at every depth:
its "grid is full" panic is unreachable under this precondition.
Calling it with `lvl > 0` on a state with zero legal placer replies is
a precondition violation: the modelled panic (`none`) occurs. -/
theorem C6_utility_dot_total (s : State) (lvl : Nat) (hwf : s.wf) :
    (s.has_placement → ∃ v, s.approx_utility_dot lvl = some v) ∧
    (0 < lvl → ¬ s.has_placement → s.approx_utility_dot lvl = none) := by
  constructor
  · exact fun h => (autil_defined lvl).1 s hwf h
  · intro hlvl hnp
    obtain ⟨lvl', rfl⟩ : ∃ l, lvl = l + 1 := ⟨lvl - 1, by omega⟩
    rw [approx_utility_dot_succ, (branch_placer_eq_nil_iff s).mpr hnp]
    rfl

set_option maxRecDepth 1000000 in
/-- Witness for C6 at a concrete input: the empty board with the dot at
the center, depth 1. -/
theorem C6_utility_dot_total_witness :
    ∃ v, (State.with_dot 40).approx_utility_dot 1 = some v :=
  (C6_utility_dot_total (State.with_dot 40) 1 (by decide)).1 (by decide)

/-- **C10.** With `lvl > 0`, `approx_utility_placer` takes its minimum
over only the non-blocked dot branches, so on a well-formed state it is
defined whenever `placer_win` is false; when the dot is fully enclosed
(`placer_win` true) the minimum ranges over an empty iterator and the
source's `unwrap` panics (modelled `none`), contrary to the adjacent
comment asserting the iterator always has length 6. -/
theorem C10_utility_placer_defined_iff (s : State) (lvl : Nat)
    (hwf : s.wf) (hlvl : 0 < lvl) :
    (s.placer_win = false → ∃ v, s.approx_utility_placer lvl = some v) ∧
    (s.placer_win = true → s.approx_utility_placer lvl = none) := by
  obtain ⟨lvl', rfl⟩ : ∃ l, lvl = l + 1 := ⟨lvl - 1, by omega⟩
  constructor
  · exact fun h => (autil_defined _).2 s hwf h
  · intro h
    rw [approx_utility_placer_succ,
      (branch_dot_filterMap_eq_nil_iff s).mpr h]
    rfl

/-- Witness for C10 at a concrete input: with the dot at center cell 40
and exactly its six neighbors filled, `placer_win` holds and the
placer-side utility at depth 1 panics (`none`). -/
theorem C10_utility_placer_defined_iff_witness :
    (⟨1 <<< 30 ||| 1 <<< 31 ||| 1 <<< 39 ||| 1 <<< 41 ||| 1 <<< 48 |||
        1 <<< 49, 40⟩ : State).approx_utility_placer 1 = none :=
  (C10_utility_placer_defined_iff
    ⟨1 <<< 30 ||| 1 <<< 31 ||| 1 <<< 39 ||| 1 <<< 41 ||| 1 <<< 48 |||
        1 <<< 49, 40⟩ 1 (by decide) (by decide)).2 (by decide)

/-! ### BFS correctness (claim C4)

The proof follows the classical BFS invariant: the searched set only
grows, contains the start, consists of in-range reachable cells, and
every searched cell not awaiting expansion has been fully expanded.
Completeness terminates because every productive iteration marks a new
in-range cell. -/

lemma testBit_or_true {a : Nat} (n : Nat) {c : Nat}
    (hc : a.testBit c = true) : (a ||| 1 <<< n).testBit c = true := by
  rw [Nat.testBit_lor, hc]
  rfl

lemma testBit_pow_eq {d c : Nat} (h : (1 <<< d).testBit c = true) : c = d := by
  by_contra hne
  rw [Nat.one_shiftLeft, Nat.testBit_two_pow_of_ne fun hc => hne hc.symm] at h
  cases h

/-- The inner scan returns `none` exactly when an off-board slot is
present. -/
lemma scan_none_iff (s : State) (ns : List (Option Nat)) :
    ∀ searched newf,
      State.scan_neighbors s ns searched newf = none ↔ none ∈ ns := by
  induction ns with
  | nil => intro searched newf; simp [State.scan_neighbors]
  | cons o rest ih =>
    intro searched newf
    rcases o with _ | n
    · simp [State.scan_neighbors]
    · simp only [State.scan_neighbors]
      by_cases hcond : searched.testBit n = false ∧ s.has_filled n = false
      · rw [if_pos hcond, ih]
        simp
      · rw [if_neg hcond, ih]
        simp

/-- Specification of a successful inner scan: the searched set grows
monotonically, every unfilled in-board slot ends up searched, and the
new-frontier cells appended are exactly the newly searched cells (all
unfilled slots of the list). -/
lemma scan_spec (s : State) (ns : List (Option Nat)) :
    ∀ searched newf searched2 newf2,
      State.scan_neighbors s ns searched newf = some (searched2, newf2) →
      (∀ c, searched.testBit c = true → searched2.testBit c = true) ∧
      (∀ n, some n ∈ ns → s.has_filled n = false →
        searched2.testBit n = true) ∧
      ∃ add, newf2 = newf ++ add ∧
        (∀ c ∈ add, searched.testBit c = false ∧
          searched2.testBit c = true ∧ s.has_filled c = false ∧
          some c ∈ ns) ∧
        (∀ c, searched2.testBit c = true →
          searched.testBit c = true ∨ c ∈ add) := by
  induction ns with
  | nil =>
    intro searched newf searched2 newf2 h
    simp only [State.scan_neighbors, Option.some_inj, Prod.mk.injEq] at h
    obtain ⟨rfl, rfl⟩ := h
    exact ⟨fun c hc => hc, by simp, [], by simp, by simp,
      fun c hc => Or.inl hc⟩
  | cons o rest ih =>
    intro searched newf searched2 newf2 h
    rcases o with _ | n
    · simp only [State.scan_neighbors] at h
      cases h
    · simp only [State.scan_neighbors] at h
      by_cases hcond : searched.testBit n = false ∧ s.has_filled n = false
      · rw [if_pos hcond] at h
        obtain ⟨mono, marked, add, haddeq, haddprop, hfrom⟩ := ih _ _ _ _ h
        refine ⟨fun c hc => mono c (testBit_or_true n hc), ?_,
          n :: add, ?_, ?_, ?_⟩
        · intro m hm hmf
          rcases List.mem_cons.mp hm with hm | hm
          · injection hm with hmn
            subst hmn
            exact mono m (testBit_or_pow_self searched m)
          · exact marked m hm hmf
        · rw [haddeq, List.append_assoc]
          rfl
        · intro c hc
          rcases List.mem_cons.mp hc with rfl | hc
          · exact ⟨hcond.1, mono c (testBit_or_pow_self searched c),
              hcond.2, List.mem_cons_self _ _⟩
          · obtain ⟨hp1, hp2, hp3, hp4⟩ := haddprop c hc
            refine ⟨?_, hp2, hp3, List.mem_cons_of_mem _ hp4⟩
            cases hsc : searched.testBit c with
            | false => rfl
            | true => rw [testBit_or_true n hsc] at hp1; cases hp1
        · intro c hc
          rcases hfrom c hc with hor | hmem
          · rw [Nat.testBit_lor] at hor
            cases hs0 : searched.testBit c with
            | true => exact Or.inl rfl
            | false =>
              rw [hs0, Bool.false_or] at hor
              exact Or.inr (testBit_pow_eq hor ▸ List.mem_cons_self _ _)
          · exact Or.inr (List.mem_cons_of_mem _ hmem)
      · rw [if_neg hcond] at h
        obtain ⟨mono, marked, add, haddeq, haddprop, hfrom⟩ := ih _ _ _ _ h
        refine ⟨mono, ?_, add, haddeq, ?_, hfrom⟩
        · intro m hm hmf
          rcases List.mem_cons.mp hm with hm | hm
          · injection hm with hmn
            subst hmn
            have hsb : searched.testBit m = true := by
              cases hsb : searched.testBit m with
              | true => rfl
              | false => exact absurd ⟨hsb, hmf⟩ hcond
            exact mono m hsb
          · exact marked m hm hmf
        · intro c hc
          obtain ⟨hp1, hp2, hp3, hp4⟩ := haddprop c hc
          exact ⟨hp1, hp2, hp3, List.mem_cons_of_mem _ hp4⟩

/-- A failing frontier expansion means some frontier cell has an
off-board slot. -/
lemma process_none (s : State) (front : List Nat) :
    ∀ searched newf,
      State.process_frontier s front searched newf = none →
      ∃ p ∈ front, none ∈ Pos.neighbors p := by
  induction front with
  | nil =>
    intro searched newf h
    simp only [State.process_frontier] at h
    cases h
  | cons p rest ih =>
    intro searched newf h
    simp only [State.process_frontier] at h
    cases hscan : State.scan_neighbors s (Pos.neighbors p) searched newf with
    | none =>
      exact ⟨p, List.mem_cons_self _ _, (scan_none_iff s _ _ _).mp hscan⟩
    | some pair =>
      rw [hscan] at h
      obtain ⟨q, hq, hqn⟩ := ih _ _ h
      exact ⟨q, List.mem_cons_of_mem _ hq, hqn⟩

/-- Specification of a successful frontier expansion: the searched set
grows, every expanded cell had no off-board slot and all its unfilled
in-board neighbors end searched, and the appended frontier cells are
exactly the newly searched cells, each an unfilled neighbor of some
expanded cell. -/
lemma process_spec (s : State) (front : List Nat) :
    ∀ searched newf searched2 newf2,
      State.process_frontier s front searched newf = some (searched2, newf2) →
      (∀ c, searched.testBit c = true → searched2.testBit c = true) ∧
      (∀ p ∈ front, none ∉ Pos.neighbors p ∧
        ∀ n, some n ∈ Pos.neighbors p → s.has_filled n = false →
          searched2.testBit n = true) ∧
      ∃ add, newf2 = newf ++ add ∧
        (∀ c ∈ add, searched.testBit c = false ∧
          searched2.testBit c = true ∧ s.has_filled c = false ∧
          ∃ p ∈ front, some c ∈ Pos.neighbors p) ∧
        (∀ c, searched2.testBit c = true →
          searched.testBit c = true ∨ c ∈ add) := by
  induction front with
  | nil =>
    intro searched newf searched2 newf2 h
    simp only [State.process_frontier, Option.some_inj, Prod.mk.injEq] at h
    obtain ⟨rfl, rfl⟩ := h
    exact ⟨fun c hc => hc, by simp, [], by simp, by simp,
      fun c hc => Or.inl hc⟩
  | cons p rest ih =>
    intro searched newf searched2 newf2 h
    simp only [State.process_frontier] at h
    cases hscan : State.scan_neighbors s (Pos.neighbors p) searched newf with
    | none => rw [hscan] at h; cases h
    | some pair =>
      obtain ⟨s1, f1⟩ := pair
      rw [hscan] at h
      obtain ⟨mono1, marked1, add1, heq1, hprop1, hfrom1⟩ :=
        scan_spec s _ _ _ _ _ hscan
      obtain ⟨mono2, expand2, add2, heq2, hprop2, hfrom2⟩ := ih _ _ _ _ h
      refine ⟨fun c hc => mono2 c (mono1 c hc), ?_, add1 ++ add2, ?_, ?_, ?_⟩
      · intro q hq
        rcases List.mem_cons.mp hq with rfl | hq
        · refine ⟨?_, ?_⟩
          · intro hmem
            rw [(scan_none_iff s _ _ _).mpr hmem] at hscan
            cases hscan
          · exact fun n hn hnf => mono2 n (marked1 n hn hnf)
        · exact expand2 q hq
      · rw [heq2, heq1, List.append_assoc]
      · intro c hc
        rcases List.mem_append.mp hc with hc | hc
        · obtain ⟨hp1, hp2, hp3, hp4⟩ := hprop1 c hc
          exact ⟨hp1, mono2 c hp2, hp3, p, List.mem_cons_self _ _, hp4⟩
        · obtain ⟨hp1, hp2, hp3, q, hq, hqn⟩ := hprop2 c hc
          refine ⟨?_, hp2, hp3, q, List.mem_cons_of_mem _ hq, hqn⟩
          cases hsc : searched.testBit c with
          | false => rfl
          | true => rw [mono1 c hsc] at hp1; cases hp1
      · intro c hc
        rcases hfrom2 c hc with hs1 | hmem
        · rcases hfrom1 c hs1 with hs0 | hmem1
          · exact Or.inl hs0
          · exact Or.inr (List.mem_append.mpr (Or.inl hmem1))
        · exact Or.inr (List.mem_append.mpr (Or.inr hmem))

lemma seen_card_le (searched : Nat) :
    (seen_set searched).card ≤ BOARD_SIZE := by
  calc (seen_set searched).card ≤ (Finset.range BOARD_SIZE).card :=
        Finset.card_filter_le _ _
    _ = BOARD_SIZE := Finset.card_range _

lemma seen_subset {a b : Nat}
    (h : ∀ c, a.testBit c = true → b.testBit c = true) :
    seen_set a ⊆ seen_set b := by
  intro c hc
  simp only [seen_set, Finset.mem_filter] at hc ⊢
  exact ⟨hc.1, h c hc.2⟩

/-- One BFS iteration preserves the invariant; it grows the searched
set, strictly when the new frontier is nonempty. -/
lemma bfs_inv_step (s : State) {searched s2 : Nat} {frontier n2 : List Nat}
    (inv : BfsInv s searched frontier)
    (h : State.process_frontier s frontier searched [] = some (s2, n2)) :
    BfsInv s s2 n2 ∧
    (∀ c, searched.testBit c = true → s2.testBit c = true) ∧
    (n2 ≠ [] → seen_set searched ⊂ seen_set s2) := by
  obtain ⟨mono, expand, add, heq, hprop, hfrom⟩ :=
    process_spec s frontier _ _ _ _ h
  have haddeq : n2 = add := by simpa using heq
  subst haddeq
  refine ⟨⟨?_, ?_, ?_, ?_, ?_⟩, mono, ?_⟩
  · exact mono _ inv.dot_mem
  · exact fun c hc => (hprop c hc).2.1
  · intro c hc
    rcases hfrom c hc with hs | hmem
    · exact inv.inrange c hs
    · obtain ⟨-, -, -, p, hp, hpn⟩ := hprop c hmem
      exact nbr_mem_lt (inv.inrange p (inv.mem_subset p hp)) hpn
  · intro c hc
    rcases hfrom c hc with hs | hmem
    · exact inv.reach c hs
    · obtain ⟨-, -, hunf, p, hp, hpn⟩ := hprop c hmem
      exact Reach.step (inv.reach p (inv.mem_subset p hp)) hpn hunf
  · intro c hc hcn
    rcases hfrom c hc with hs | hmem
    · by_cases hcf : c ∈ frontier
      · exact expand c hcf
      · obtain ⟨hno, hmark⟩ := inv.closed c hs hcf
        exact ⟨hno, fun m hm hmf => mono m (hmark m hm hmf)⟩
    · exact absurd hmem hcn
  · intro hne
    have hsub := seen_subset mono
    rcases hadd : n2 with _ | ⟨c, rest⟩
    · exact absurd hadd hne
    · subst hadd
      obtain ⟨hcf, hcs, -, p, hp, hpn⟩ := hprop c (List.mem_cons_self _ _)
      refine (Finset.ssubset_iff_of_subset hsub).mpr ⟨c, ?_, ?_⟩
      · simp only [seen_set, Finset.mem_filter, Finset.mem_range]
        exact ⟨nbr_mem_lt (inv.inrange p (inv.mem_subset p hp)) hpn, hcs⟩
      · simp only [seen_set, Finset.mem_filter, Finset.mem_range]
        rintro ⟨-, habs⟩
        rw [habs] at hcf
        cases hcf

/-- With an empty frontier, the closed searched set covers everything
reachable, so no escape exists. -/
lemma no_escape_of_closed (s : State) {searched : Nat}
    (inv : BfsInv s searched []) : ¬ Escapes s := by
  rintro ⟨c, hreach, hesc⟩
  have hall : ∀ d, Reach s d → searched.testBit d = true := by
    intro d hd
    induction hd with
    | start => exact inv.dot_mem
    | step hr hmem hnf ih =>
      exact (inv.closed _ ih (List.not_mem_nil _)).2 _ hmem hnf
  exact (inv.closed c (hall c hreach) (List.not_mem_nil _)).1 hesc

/-- Soundness: if the BFS loop returns a distance, an escape exists. -/
lemma bfs_some_escapes (s : State) :
    ∀ (fuel searched : Nat) (frontier : List Nat) (steps k : Nat),
      BfsInv s searched frontier →
      State.bfs_loop s fuel searched frontier steps = some k →
      Escapes s := by
  intro fuel
  induction fuel with
  | zero =>
    intro searched frontier steps k _ h
    simp [State.bfs_loop] at h
  | succ fuel ih =>
    intro searched frontier steps k inv h
    simp only [State.bfs_loop] at h
    by_cases hfr : frontier = []
    · rw [if_pos hfr] at h
      cases h
    · rw [if_neg hfr] at h
      cases hpf : State.process_frontier s frontier searched [] with
      | none =>
        obtain ⟨p, hp, hpn⟩ := process_none s frontier _ _ hpf
        exact ⟨p, inv.reach p (inv.mem_subset p hp), hpn⟩
      | some pair =>
        obtain ⟨s2, n2⟩ := pair
        rw [hpf] at h
        obtain ⟨inv2, -, -⟩ := bfs_inv_step s inv hpf
        exact ih s2 n2 (steps + 1) k inv2 h

/-- Completeness: if an escape exists, the BFS loop returns a distance
whenever the fuel covers the unsearched part of the board. -/
lemma bfs_complete (s : State) :
    ∀ (fuel searched : Nat) (frontier : List Nat) (steps : Nat),
      BfsInv s searched frontier → Escapes s →
      BOARD_SIZE + 1 - (seen_set searched).card ≤ fuel →
      ∃ k, State.bfs_loop s fuel searched frontier steps = some k := by
  intro fuel
  induction fuel with
  | zero =>
    intro searched frontier steps inv hesc hineq
    have := seen_card_le searched
    omega
  | succ fuel ih =>
    intro searched frontier steps inv hesc hineq
    have hfr : frontier ≠ [] := by
      intro hc
      subst hc
      exact no_escape_of_closed s inv hesc
    cases hpf : State.process_frontier s frontier searched [] with
    | none =>
      refine ⟨steps + 1, ?_⟩
      simp only [State.bfs_loop]
      rw [if_neg hfr, hpf]
    | some pair =>
      obtain ⟨s2, n2⟩ := pair
      obtain ⟨inv2, mono, hss⟩ := bfs_inv_step s inv hpf
      by_cases hn2 : n2 = []
      · subst hn2
        exact absurd hesc (no_escape_of_closed s inv2)
      · have hlt := Finset.card_lt_card (hss hn2)
        have hle := seen_card_le s2
        obtain ⟨k, hk⟩ := ih s2 n2 (steps + 1) inv2 hesc (by omega)
        refine ⟨k, ?_⟩
        simp only [State.bfs_loop]
        rw [if_neg hfr, hpf]
        exact hk

/-- The invariant holds at the start of the search. -/
lemma bfs_inv_init (s : State) (h1 : s.dot < BOARD_SIZE) :
    BfsInv s (1 <<< s.dot) [s.dot] := by
  refine ⟨?_, ?_, ?_, ?_, ?_⟩
  · rw [Nat.one_shiftLeft]
    exact Nat.testBit_two_pow_self
  · intro c hc
    rcases List.mem_singleton.mp hc with rfl
    rw [Nat.one_shiftLeft]
    exact Nat.testBit_two_pow_self
  · intro c hc
    exact (testBit_pow_eq hc) ▸ h1
  · intro c hc
    have hcd := testBit_pow_eq hc
    subst hcd
    exact Reach.start
  · intro c hc hcn
    have hcd := testBit_pow_eq hc
    subst hcd
    exact absurd (List.mem_singleton.mpr rfl) hcn

/-- Cells along an adjacency chain of unfilled cells starting at a
reachable cell are reachable. -/
lemma reach_of_chain (s : State) :
    ∀ (t : List Nat) (c : Nat), Reach s c →
      List.Chain (fun a b => some b ∈ Pos.neighbors a) c t →
      (∀ x ∈ t, s.has_filled x = false) →
      ∀ x ∈ c :: t, Reach s x := by
  intro t
  induction t with
  | nil =>
    intro c hc _ _ x hx
    rcases List.mem_singleton.mp hx with rfl
    exact hc
  | cons b rest ih =>
    intro c hc hchain hunf x hx
    rcases List.chain_cons.mp hchain with ⟨hcb, hchain2⟩
    have hb : Reach s b := Reach.step hc hcb (hunf b (List.mem_cons_self _ _))
    rcases List.mem_cons.mp hx with rfl | hx
    · exact hc
    · exact ih b hb hchain2 (fun y hy => hunf y (List.mem_cons_of_mem _ hy)) x hx

/-- An escape path in the spec's sense yields an escape. -/
lemma escapes_of_escape_list (s : State)
    (hex : ∃ l, escape_list s l) : Escapes s := by
  obtain ⟨l, hhead, hchain, hunf, e, hlast, hesc⟩ := hex
  rcases l with _ | ⟨a, t⟩
  · cases hhead
  · rw [List.head?_cons] at hhead
    injection hhead with ha
    subst ha
    have hch : List.Chain (fun a b => some b ∈ Pos.neighbors a) s.dot t := hchain
    have hreach := reach_of_chain s t s.dot Reach.start hch
      fun y hy => hunf y (List.mem_cons_of_mem _ hy)
    have he_mem : e ∈ s.dot :: t := by
      obtain ⟨hne, heq⟩ := List.mem_getLast?_eq_getLast hlast
      rw [heq]
      exact List.getLast_mem hne
    exact ⟨e, hreach e he_mem, hesc⟩

/-- Conversely, an escape yields an escape path, provided the dot's own
cell is unfilled (the documented state invariant). -/
lemma escape_list_of_escapes (s : State) (h2 : s.has_filled s.dot = false)
    (hesc : Escapes s) : ∃ l, escape_list s l := by
  obtain ⟨c, hreach, hoff⟩ := hesc
  suffices h : ∃ l : List Nat, l.head? = some s.dot ∧
      l.Chain' (fun a b => some b ∈ Pos.neighbors a) ∧
      (∀ x ∈ l, s.has_filled x = false) ∧ l.getLast? = some c by
    obtain ⟨l, hh, hc, hu, hl⟩ := h
    exact ⟨l, hh, hc, hu, c, hl, hoff⟩
  clear hoff
  induction hreach with
  | start =>
    exact ⟨[s.dot], rfl, List.chain'_singleton _, by simpa using h2, rfl⟩
  | @step c2 n hr hmem hnf ih =>
    obtain ⟨l, hh, hc, hu, hl⟩ := ih
    refine ⟨l ++ [n], ?_, ?_, ?_, ?_⟩
    · rw [List.head?_append, hh]
      rfl
    · rw [List.chain'_append]
      refine ⟨hc, List.chain'_singleton _, ?_⟩
      intro x hx y hy
      rw [hl] at hx
      rcases Option.mem_some_iff.mp hx with rfl
      rcases Option.mem_some_iff.mp hy with rfl
      exact hmem
    · intro x hx
      rcases List.mem_append.mp hx with hx | hx
      · exact hu x hx
      · rcases List.mem_singleton.mp hx with rfl
        exact hnf
    · rw [List.getLast?_append]
      rfl

set_option maxRecDepth 1000000 in
/-- Intended-model half of claim C4: with the intended exact-bitset
`searched` (the semantics the source comment and the spec describe),
`dist_to_reach_edge` returns `none` iff no escape path exists — no
sequence of pairwise-adjacent unfilled cells starts at the dot's cell
and ends at a cell one of whose six neighbor slots is off-board.  In
particular, when all six neighbors of the dot exist and are filled, it
returns `none` whatever else is filled.  (The state is assumed
well-formed: dot in range, dot cell unfilled.)  The shipped code
diverges from this (see `C4_release_bfs_misses_escape`). -/
theorem bfs_intended_none_iff_sealed (s : State) (h1 : s.dot < BOARD_SIZE)
    (h2 : s.has_filled s.dot = false) :
    (s.dist_to_reach_edge = none ↔ ¬ ∃ l, escape_list s l) ∧
    ((∀ o ∈ Pos.neighbors s.dot, ∃ n, o = some n ∧ s.has_filled n = true) →
      s.dist_to_reach_edge = none) := by
  have hinit := bfs_inv_init s h1
  have hiff : s.dist_to_reach_edge = none ↔ ¬ ∃ l, escape_list s l := by
    constructor
    · intro hnone hex
      have hesc := escapes_of_escape_list s hex
      obtain ⟨k, hk⟩ :=
        bfs_complete s (BOARD_SIZE + 1) _ _ 0 hinit hesc (Nat.sub_le _ _)
      simp only [State.dist_to_reach_edge] at hnone
      rw [hnone] at hk
      cases hk
    · intro hnex
      cases hd : s.dist_to_reach_edge with
      | none => rfl
      | some k =>
        simp only [State.dist_to_reach_edge] at hd
        exact absurd (escape_list_of_escapes s h2
          (bfs_some_escapes s (BOARD_SIZE + 1) _ _ 0 k hinit hd)) hnex
  refine ⟨hiff, fun hfilled => hiff.mpr ?_⟩
  rintro ⟨l, hl⟩
  obtain ⟨c, hreach, hoff⟩ := escapes_of_escape_list s ⟨l, hl⟩
  have honly : ∀ d, Reach s d → d = s.dot := by
    intro d hd
    induction hd with
    | start => rfl
    | @step c2 n hr hmem hnf ih =>
      subst ih
      obtain ⟨m, hm, hmf⟩ := hfilled (some n) hmem
      injection hm with hm
      subst hm
      rw [hmf] at hnf
      cases hnf
  have hcd := honly c hreach
  subst hcd
  obtain ⟨m, hm, -⟩ := hfilled none hoff
  cases hm

set_option maxRecDepth 1000000 in
/-- Instance of `bfs_intended_none_iff_sealed` at a concrete input: the
empty board with the dot at the center. -/
theorem bfs_intended_none_iff_sealed_inst :
    ((State.with_dot 40).dist_to_reach_edge = none ↔
      ¬ ∃ l, escape_list (State.with_dot 40) l) ∧
    ((∀ o ∈ Pos.neighbors (State.with_dot 40).dot,
        ∃ n, o = some n ∧ (State.with_dot 40).has_filled n = true) →
      (State.with_dot 40).dist_to_reach_edge = none) :=
  bfs_intended_none_iff_sealed (State.with_dot 40) (by decide) (by decide)

/-! ### The BFS visited-set bug (claims C4 and C9)

The shipped `searched` is an `i32`, so the claims — which describe the
documented exact-bitset search — fail on the code as built: a release
build masks bit indices mod 32 and already misreports the canonical
start position (empty board, dot at center cell 40) as sealed in, and a
debug build panics there at `1 << 40`. -/

set_option maxRecDepth 1000000 in
/-- **C4 (code bug).** At the canonical start state — empty board, dot
at center cell 40, a well-formed state — the escape path
`40 → 39 → 38 → 37 → 36` of pairwise-adjacent unfilled cells ends at
cell 36 = (0,4), whose left neighbor slot is off-board; yet the
release-build BFS (`i32` visited mask, bit indices mod 32) returns
`none`, violating the claimed "None iff no escape path exists".  (A
debug build panics at the initial `1 << 40` instead.)  The intended
exact-bitset search satisfies the claim (`bfs_intended_none_iff_sealed`)
and returns `some 5` here. -/
theorem C4_release_bfs_misses_escape :
    (State.with_dot 40).wf ∧
    escape_list (State.with_dot 40) [40, 39, 38, 37, 36] ∧
    (State.with_dot 40).dist_to_reach_edge = some 5 ∧
    (State.with_dot 40).dist_to_reach_edge_release = none := by
  refine ⟨by decide, ⟨by decide, ?_, by decide, 36, by decide, by decide⟩,
    by decide, by decide⟩
  exact List.Chain.cons (by decide) (List.Chain.cons (by decide)
    (List.Chain.cons (by decide) (List.Chain.cons (by decide)
      List.Chain.nil)))

set_option maxRecDepth 1000000 in
/-- **C9 (code bug).** On the empty board with the dot at the center
cell 40, the straight-line heuristic gives 5 and the intended
exact-bitset BFS agrees (`some 5`), but the release build of
`dist_to_reach_edge` returns `none` — its 32-bit visited mask saturates
before the frontier reaches the boundary — so the claimed agreement at
every position fails on the code as built.  (A debug build panics at
`1 << 40` instead of returning at all.) -/
theorem C9_release_bfs_disagrees_at_center :
    Pos.dist_to_edge 40 = 5 ∧
    (State.with_dot 40).dist_to_reach_edge = some (Pos.dist_to_edge 40) ∧
    (State.with_dot 40).dist_to_reach_edge_release = none ∧
    ¬ (State.with_dot 40).dist_to_reach_edge_release =
        some (Pos.dist_to_edge 40) := by
  decide

end MinimaxDot
